import Mathlib

/-
Verification of the log-parser repository (src/parser.rs) against its
natural-language specification.

The input file is modelled as a list of bytes (natural numbers).  Lines are
delimited by the byte 10; a read_line call of the BufReader is modelled by
takeLine, which returns the bytes up to and including the first terminator
together with the remaining bytes.  The scanning loop of partially_read_file
is modelled by readLines (the list of raw lines the loop consumes, in order);
the stream of handler invocations it performs is exactly the decode-filtered
stream of those consumed lines, which is how partially_read_file below is
defined.  Concurrency is modelled by folding the per-worker delta streams in
worker order; this is one admissible interleaving, and merging is proved
commutative so the choice is immaterial for the aggregate.  Record decoding
is performed by the serde_json library, which is outside this repository; a
decoder modelled from the specification is provided for concrete evaluation,
while all generic theorems hold for an arbitrary decoder.
-/

namespace LogParser

/-- A byte of the input file, modelled as a natural number. -/
abbrev Byte := Nat

/-- The line-terminator byte (ASCII line feed). -/
def newline : Byte := 10

/-- One read_line call: split off everything up to and including the first
line terminator (or the whole sequence when no terminator occurs), returning
the line together with the remaining bytes. -/
def takeLine : List Byte → List Byte × List Byte
  | [] => ([], [])
  | b :: rest =>
    if b = newline then ([b], rest)
    else
      let p := takeLine rest
      (b :: p.1, p.2)

/-- Fuelled worker of splitLines; the fuel is an upper bound on the number of
bytes left, so the recursion is structural. -/
def splitLinesAux : Nat → List Byte → List (List Byte)
  | 0, _ => []
  | fuel + 1, xs =>
    if xs = [] then []
    else (takeLine xs).1 :: splitLinesAux fuel (takeLine xs).2

/-- All lines of a byte sequence, in order, each including its terminator
(the final line possibly lacking one).  This is what a single
whole-file scan reads. -/
def splitLines (xs : List Byte) : List (List Byte) :=
  splitLinesAux xs.length xs

/-- Fuelled worker of readLines. -/
def readLinesAux : Nat → List Byte → Nat → Nat → List (List Byte)
  | 0, _, _, _ => []
  | fuel + 1, xs, total, budget =>
    if xs = [] then []
    else if total + (takeLine xs).1.length > budget then [(takeLine xs).1]
    else (takeLine xs).1 :: readLinesAux fuel (takeLine xs).2 (total + (takeLine xs).1.length) budget

/-- The scanning loop of partially_read_file in src/parser.rs: starting from
an already-consumed byte count, repeatedly read one whole line; stop on
end of input, or after the line that makes the consumed total exceed the
budget.  Returns the list of raw lines consumed, in order.  Note that the
budget test happens after a line is read, exactly as in the source, so one
line is consumed even when the initial total already exceeds the budget. -/
def readLines (xs : List Byte) (total budget : Nat) : List (List Byte) :=
  readLinesAux xs.length xs total budget

/-- The per-category aggregate of src/parser.rs: a line counter and a total
byte count. -/
structure LogRegister where
  counter : Nat
  num_of_bytes : Nat
deriving DecidableEq

/-- LogRegister::new in src/parser.rs: the delta contributed by one line. -/
def LogRegister.new (num_of_bytes : Nat) : LogRegister :=
  { counter := 1, num_of_bytes := num_of_bytes }

/-- LogRegister::zero in src/parser.rs. -/
def LogRegister.zero : LogRegister :=
  { counter := 0, num_of_bytes := 0 }

/-- The AddAssign implementation of LogRegister in src/parser.rs, as a pure
function: componentwise addition of the u32 counter and the u64 byte total,
wrapping at 4294967296 and 18446744073709551616 respectively, as the release
build of the source does. -/
def LogRegister.add (a d : LogRegister) : LogRegister :=
  { counter := (a.counter + d.counter) % 4294967296,
    num_of_bytes := (a.num_of_bytes + d.num_of_bytes) % 18446744073709551616 }

/-- The aggregate map from category (the byte string of the type field) to
its LogRegister, modelled as an association list with unique keys. -/
abbrev AggMap := List (List Byte × LogRegister)

/-- The entry(log_type).or_insert(zero) followed by add_assign(delta) pattern
used by all three parsers: update the existing entry of the category, or
append a fresh zero entry and merge the delta into it. -/
def mergeEntry : AggMap → List Byte → LogRegister → AggMap
  | [], c, d => [(c, LogRegister.zero.add d)]
  | (k, v) :: rest, c, d =>
    if k = c then (k, v.add d) :: rest
    else (k, v) :: mergeEntry rest c d

/-- Merge a stream of (category, line length) deltas into an aggregate map,
in stream order. -/
def mergeDeltas (m : AggMap) (ds : List (List Byte × Nat)) : AggMap :=
  ds.foldl (fun acc d => mergeEntry acc d.1 (LogRegister.new d.2)) m

/-- The delta a raw line contributes through a given record decoder: its
category paired with its byte length on success, nothing on decode failure. -/
def deltaOf (decode : List Byte → Option (List Byte)) (l : List Byte) : Option (List Byte × Nat) :=
  (decode l).map (fun c => (c, l.length))

/-- The raw lines consumed by one call of partially_read_file in
src/parser.rs: seek to start_idx; when start_idx is positive, read and
discard one line to resynchronize, its length initialising the consumed
total; then run the scanning loop with the byte budget. -/
def partially_read_lines (file : List Byte) (start_idx num_of_bytes : Nat) : List (List Byte) :=
  let after := file.drop start_idx
  let discarded := if 0 < start_idx then (takeLine after).1 else []
  let rest := if 0 < start_idx then (takeLine after).2 else after
  readLines rest discarded.length num_of_bytes

/-- The stream of handler invocations performed by partially_read_file in
src/parser.rs: each consumed line is decoded and, on success, the handler
receives the category and the byte length of the line, in consumption
order; lines that fail to decode produce no invocation. -/
def partially_read_file (decode : List Byte → Option (List Byte))
    (file : List Byte) (start_idx num_of_bytes : Nat) : List (List Byte × Nat) :=
  (partially_read_lines file start_idx num_of_bytes).filterMap (deltaOf decode)

/-- The byte budget of every worker, as computed by both multi-thread
parsers in src/parser.rs: file size divided by worker count, truncating. -/
def bytesPortion (size num_of_thread : Nat) : Nat :=
  size / num_of_thread

/-- The start offset of a worker, as computed in src/parser.rs. -/
def startIdxOf (idx size num_of_thread : Nat) : Nat :=
  idx * bytesPortion size num_of_thread

/-- The position just past the first line terminator at or after position s
(or the end of file when no further terminator exists): the point at which
a worker seeking to s resynchronizes. -/
def nextLineEnd (file : List Byte) (s : Nat) : Nat :=
  s + (takeLine (file.drop s)).1.length

/-- multi_thread_parser_dashmap of src/parser.rs: every worker idx scans its
partition and merges each delta directly into the shared concurrent map.
The merges are folded here in worker order; mergeEntry is commutative in
its deltas, so any interleaving yields the same map. -/
def multi_thread_parser_dashmap (decode : List Byte → Option (List Byte))
    (num_of_thread : Nat) (file : List Byte) : AggMap :=
  let size := file.length
  let bp := bytesPortion size num_of_thread
  (List.range num_of_thread).foldl
    (fun m idx => mergeDeltas m (partially_read_file decode file (idx * bp) bp)) []

/-- multi_thread_parser_channel of src/parser.rs: every worker sends each
delta as a (category, LogRegister::new) message over the channel, and a
single reducer folds all received messages into a private map. -/
def multi_thread_parser_channel (decode : List Byte → Option (List Byte))
    (num_of_thread : Nat) (file : List Byte) : AggMap :=
  let size := file.length
  let bp := bytesPortion size num_of_thread
  let messages : List (List Byte × LogRegister) :=
    (List.range num_of_thread).foldl
      (fun acc idx =>
        acc ++ (partially_read_file decode file (idx * bp) bp).map
          (fun d => (d.1, LogRegister.new d.2))) []
  messages.foldl (fun m msg => mergeEntry m msg.1 msg.2) []

/-- single_thread_parser of src/parser.rs: read every line of the file to
end of input, decode each, and merge the successful ones into the map. -/
def singleThreadParser (decode : List Byte → Option (List Byte))
    (file : List Byte) : AggMap :=
  (splitLines file).foldl
    (fun m l =>
      match deltaOf decode l with
      | some d => mergeEntry m d.1 (LogRegister.new d.2)
      | none => m) []

/-- Lookup of a category in an aggregate map. -/
def lookupCat : AggMap → List Byte → Option LogRegister
  | [], _ => none
  | (k, v) :: rest, c => if k = c then some v else lookupCat rest c

/-- A well-formed single line: nonempty, with no line terminator before its
last byte. -/
def IsChunk (l : List Byte) : Prop :=
  l ≠ [] ∧ ∀ b ∈ l.dropLast, b ≠ newline

/-- A well-formed decomposition of a file into lines: every element is a
single line and every element except the last ends with the terminator. -/
def Proper (M : List (List Byte)) : Prop :=
  (∀ l ∈ M, IsChunk l) ∧ ∀ l ∈ M.dropLast, l.getLast? = some newline

/-- The byte position at which the line of a given index starts. -/
def posOf : List (List Byte) → Nat → Nat
  | _, 0 => 0
  | [], _ + 1 => 0
  | l :: ls, j + 1 => l.length + posOf ls j

/-- The number of lines a scan starting at position 0 consumes before
stopping under byte budget s: lines are consumed while the running total
does not exceed s, including the first line that makes it exceed.  The same
function gives the index of the first line starting strictly after byte s,
which is where a worker seeking to s resynchronizes. -/
def lineCountUpto : List (List Byte) → Nat → Nat
  | [], _ => 0
  | l :: ls, s => if l.length > s then 1 else lineCountUpto ls (s - l.length) + 1

/-- The lines of the file that the partition scheme assigns to some worker:
the lines whose first byte lies at an offset of at most
workerCount * byteBudget.  When the worker count divides the file size these
are all lines of the file. -/
def assignedLines (file : List Byte) (num_of_thread : Nat) : List (List Byte) :=
  let M := splitLines file
  M.take (lineCountUpto M (num_of_thread * bytesPortion file.length num_of_thread))

/-- The concatenation, in worker order, of the raw lines consumed by the
workers spawned with a common byte budget. -/
def workerLinesJoined (file : List Byte) (num_of_thread bp : Nat) : List (List Byte) :=
  ((List.range num_of_thread).map (fun i => partially_read_lines file (i * bp) bp)).flatten

/-- Modelled from the spec: record decoding (RecordDecoder, spec section 4.3)
is performed by the serde_json library, which is not part of this
repository.  Helper: drop one trailing line terminator, as the decoder
tolerates the terminator kept by read_line. -/
def stripNL (l : List Byte) : List Byte :=
  match l.getLast? with
  | some b => if b = newline then l.dropLast else l
  | none => l

/-- Modelled from the spec: the body of a quoted string literal with no
escape sequences, returning its content and the bytes after the closing
quote. -/
def parseStringLit : List Byte → Option (List Byte × List Byte)
  | [] => none
  | b :: rest =>
    if b = 34 then some ([], rest)
    else if b = 92 then none
    else
      match parseStringLit rest with
      | some (s, r) => some (b :: s, r)
      | none => none

/-- Modelled from the spec: a scalar (non-string) field value, taken as the
maximal nonempty run of bytes before the next separator or closing brace. -/
def spanScalar : List Byte → List Byte × List Byte
  | [] => ([], [])
  | b :: rest =>
    if b = 44 ∨ b = 125 then ([], b :: rest)
    else
      let p := spanScalar rest
      (b :: p.1, p.2)

/-- Modelled from the spec: the members of a flat record object, each a
quoted key with either a string value (kept) or a scalar value (ignored),
ending exactly at the closing brace. -/
def parseMembersAux : Nat → List Byte → Option (List (List Byte × Option (List Byte)))
  | 0, _ => none
  | fuel + 1, xs =>
    match xs with
    | [125] => some []
    | 34 :: rest =>
      match parseStringLit rest with
      | none => none
      | some (key, r1) =>
        match r1 with
        | 58 :: r2 =>
          let vres : Option (Option (List Byte) × List Byte) :=
            match r2 with
            | 34 :: r3 => (parseStringLit r3).map (fun p => (some p.1, p.2))
            | _ =>
              let p := spanScalar r2
              if p.1 = [] then none else some (none, p.2)
          match vres with
          | none => none
          | some (v, r4) =>
            match r4 with
            | [125] => some [(key, v)]
            | 44 :: r5 => (parseMembersAux fuel r5).map (fun ms => (key, v) :: ms)
            | _ => none
        | _ => none
    | _ => none

/-- The bytes of the required field name type. -/
def typeKey : List Byte := [116, 121, 112, 101]

/-- Modelled from the spec: the RecordDecoder of spec section 4.3, which the
repository delegates to the serde_json library (external to this
repository).  A raw line decodes to the value of its required string field
named type; on any deviation (not a flat record object of this shape, field
missing, or its value not a string) decoding fails.  The model covers flat
objects of string and scalar fields without escape sequences, which is the
shape every record in this development exercises; anything else fails. -/
def decodeRecord (l : List Byte) : Option (List Byte) :=
  match stripNL l with
  | 123 :: body =>
    match parseMembersAux (body.length + 1) body with
    | some ms =>
      match ms.find? (fun kv => kv.1 = typeKey) with
      | some (_, some v) => some v
      | _ => none
    | none => none
  | _ => none

/-- The 39-byte sample file of the concrete scenario in the spec: the three
13-byte lines of records with types a, b and a, each ending with the line
terminator. -/
def sampleFile : List Byte :=
  [123, 34, 116, 121, 112, 101, 34, 58, 34, 97, 34, 125, 10,
   123, 34, 116, 121, 112, 101, 34, 58, 34, 98, 34, 125, 10,
   123, 34, 116, 121, 112, 101, 34, 58, 34, 97, 34, 125, 10]

/-- A 42-byte file of three lines whose middle 16-byte line covers both
interior partition boundaries when three workers are used (byte budget 14,
boundaries at 14 and 28, middle line occupying bytes 13 to 28): the lines
are records of types a (13 bytes), cccc (16 bytes) and b (13 bytes). -/
def straddleFile : List Byte :=
  [123, 34, 116, 121, 112, 101, 34, 58, 34, 97, 34, 125, 10,
   123, 34, 116, 121, 112, 101, 34, 58, 34, 99, 99, 99, 99, 34, 125, 10,
   123, 34, 116, 121, 112, 101, 34, 58, 34, 98, 34, 125, 10]

/-- A 17-byte file whose first 4-byte line is not a record (the bytes of the
word not followed by a terminator) and whose second 13-byte line is a record
of type a. -/
def malformedFile : List Byte :=
  [110, 111, 116, 10,
   123, 34, 116, 121, 112, 101, 34, 58, 34, 97, 34, 125, 10]

/-- The sum of the byte lengths carried by a list of deltas. -/
def sumBytes (ds : List (List Byte × Nat)) : Nat :=
  (ds.map (fun d => d.2)).sum

/-- The total byte length of a list of lines. -/
def sumLens (M : List (List Byte)) : Nat :=
  (M.map List.length).sum

/-- The 13-byte record line of type a, ending with the terminator. -/
def recordA : List Byte :=
  [123, 34, 116, 121, 112, 101, 34, 58, 34, 97, 34, 125, 10]

/-- A file of 4294967296 identical 13-byte records of type a: one more line
of one category than the u32 counter can count, so the wrapping counter of
that category returns to 0. -/
def hugeFile : List Byte :=
  (List.replicate 4294967296 recordA).flatten

theorem takeLine_nil : takeLine [] = ([], []) := rfl

theorem takeLine_cons (b : Byte) (rest : List Byte) :
    takeLine (b :: rest) =
      if b = newline then ([b], rest)
      else (b :: (takeLine rest).1, (takeLine rest).2) := rfl

theorem takeLine_fst_append_snd (xs : List Byte) :
    (takeLine xs).1 ++ (takeLine xs).2 = xs := by
  induction xs with
  | nil => rfl
  | cons b rest ih =>
    rw [takeLine_cons]
    by_cases hb : b = newline
    · simp [hb]
    · simp [hb, ih]

theorem takeLine_fst_ne_nil {xs : List Byte} (h : xs ≠ []) : (takeLine xs).1 ≠ [] := by
  cases xs with
  | nil => exact absurd rfl h
  | cons b rest =>
    rw [takeLine_cons]
    by_cases hb : b = newline <;> simp [hb]

theorem takeLine_snd_length_lt {xs : List Byte} (h : xs ≠ []) :
    (takeLine xs).2.length < xs.length := by
  have happ := takeLine_fst_append_snd xs
  have hne := takeLine_fst_ne_nil h
  have hlen : (takeLine xs).1.length + (takeLine xs).2.length = xs.length := by
    rw [← List.length_append, happ]
  have hpos : 0 < (takeLine xs).1.length := List.length_pos.mpr hne
  omega

theorem takeLine_fst_no_inner (xs : List Byte) :
    ∀ b ∈ (takeLine xs).1.dropLast, b ≠ newline := by
  induction xs with
  | nil => simp [takeLine_nil]
  | cons b rest ih =>
    rw [takeLine_cons]
    by_cases hb : b = newline
    · simp [hb]
    · simp only [if_neg hb]
      intro x hx
      rcases h1 : (takeLine rest).1 with _ | ⟨c, cs⟩
      · simp [h1] at hx
      · rw [h1, List.dropLast_cons_of_ne_nil (by simp)] at hx
        rcases List.mem_cons.mp hx with h | h
        · subst h; exact hb
        · exact ih x (by rw [h1]; exact h)

theorem takeLine_getLast_of_snd_ne_nil (xs : List Byte) (h : (takeLine xs).2 ≠ []) :
    (takeLine xs).1.getLast? = some newline := by
  induction xs with
  | nil => simp [takeLine_nil] at h
  | cons b rest ih =>
    rw [takeLine_cons] at h ⊢
    by_cases hb : b = newline
    · simp [hb]
    · simp only [if_neg hb] at h ⊢
      have h2 : (takeLine rest).2 ≠ [] := by simpa using h
      have hlast := ih h2
      have hne : (takeLine rest).1 ≠ [] := by
        intro hnil
        rw [hnil] at hlast
        simp at hlast
      rcases h1 : (takeLine rest).1 with _ | ⟨c, cs⟩
      · exact absurd h1 hne
      · rw [h1] at hlast
        simp [List.getLast?_cons_cons, hlast]

theorem takeLine_append_of_nl (l : List Byte) (hinner : ∀ b ∈ l.dropLast, b ≠ newline)
    (hlast : l.getLast? = some newline) (rest : List Byte) :
    takeLine (l ++ rest) = (l, rest) := by
  induction l with
  | nil => simp at hlast
  | cons b t ih =>
    cases t with
    | nil =>
      have hb : b = newline := by simpa using hlast
      subst hb
      simp [takeLine_cons]
    | cons c cs =>
      have hb : b ≠ newline := by
        apply hinner b
        rw [List.dropLast_cons_of_ne_nil (by simp)]
        simp
      rw [List.cons_append, takeLine_cons, if_neg hb]
      have hinner2 : ∀ x ∈ (c :: cs).dropLast, x ≠ newline := by
        intro x hx
        apply hinner x
        rw [List.dropLast_cons_of_ne_nil (by simp)]
        exact List.mem_cons_of_mem b hx
      have hlast2 : (c :: cs).getLast? = some newline := by
        rwa [List.getLast?_cons_cons] at hlast
      rw [ih hinner2 hlast2]

theorem takeLine_of_no_nl (l : List Byte) (h : ∀ b ∈ l, b ≠ newline) :
    takeLine l = (l, []) := by
  induction l with
  | nil => rfl
  | cons b t ih =>
    rw [takeLine_cons, if_neg (h b (by simp))]
    rw [ih (fun x hx => h x (List.mem_cons_of_mem b hx))]

theorem chunk_no_nl {l : List Byte} (hc : IsChunk l) (hlast : l.getLast? ≠ some newline) :
    ∀ b ∈ l, b ≠ newline := by
  intro b hb
  rcases hc with ⟨hne, hinner⟩
  have hsplit : l.dropLast ++ [l.getLast hne] = l := List.dropLast_append_getLast hne
  rw [← hsplit] at hb
  rcases List.mem_append.mp hb with h | h
  · exact hinner b h
  · have hbl : b = l.getLast hne := by simpa using h
    intro hbn
    apply hlast
    rw [List.getLast?_eq_getLast l hne, ← hbl, hbn]

theorem readLinesAux_nil (f t b : Nat) : readLinesAux f [] t b = [] := by
  cases f with
  | zero => rfl
  | succ f => simp [readLinesAux]

theorem readLinesAux_congr : ∀ (f1 : Nat) (xs : List Byte) (t b f2 : Nat),
    xs.length ≤ f1 → xs.length ≤ f2 →
    readLinesAux f1 xs t b = readLinesAux f2 xs t b := by
  intro f1
  induction f1 with
  | zero =>
    intro xs t b f2 h1 _
    have hxs : xs = [] := by
      cases xs with
      | nil => rfl
      | cons x r => simp at h1
    subst hxs
    rw [readLinesAux_nil, readLinesAux_nil]
  | succ f ih =>
    intro xs t b f2 h1 h2
    cases xs with
    | nil => rw [readLinesAux_nil, readLinesAux_nil]
    | cons x rest =>
      cases f2 with
      | zero => simp at h2
      | succ g =>
        have hlt : (takeLine (x :: rest)).2.length < (x :: rest).length :=
          takeLine_snd_length_lt (by simp)
        simp only [List.length_cons] at h1 h2 hlt
        simp only [readLinesAux, if_neg (List.cons_ne_nil x rest)]
        split
        · rfl
        · rw [ih (takeLine (x :: rest)).2 _ b g (by omega) (by omega)]

theorem readLines_nil (t b : Nat) : readLines [] t b = [] := rfl

theorem readLines_eq (xs : List Byte) (h : xs ≠ []) (t b : Nat) :
    readLines xs t b =
      if t + (takeLine xs).1.length > b then [(takeLine xs).1]
      else (takeLine xs).1 :: readLines (takeLine xs).2 (t + (takeLine xs).1.length) b := by
  cases xs with
  | nil => exact absurd rfl h
  | cons x rest =>
    have hlt : (takeLine (x :: rest)).2.length < (x :: rest).length :=
      takeLine_snd_length_lt (by simp)
    show readLinesAux (x :: rest).length (x :: rest) t b = _
    rw [List.length_cons]
    simp only [readLinesAux, if_neg (List.cons_ne_nil x rest)]
    split
    · rfl
    · rw [readLinesAux_congr rest.length (takeLine (x :: rest)).2 _ b
        (takeLine (x :: rest)).2.length (by simp [List.length_cons] at hlt; omega) le_rfl]
      rfl

theorem splitLinesAux_nil (f : Nat) : splitLinesAux f [] = [] := by
  cases f with
  | zero => rfl
  | succ f => simp [splitLinesAux]

theorem splitLinesAux_congr : ∀ (f1 : Nat) (xs : List Byte) (f2 : Nat),
    xs.length ≤ f1 → xs.length ≤ f2 →
    splitLinesAux f1 xs = splitLinesAux f2 xs := by
  intro f1
  induction f1 with
  | zero =>
    intro xs f2 h1 _
    have hxs : xs = [] := by
      cases xs with
      | nil => rfl
      | cons x r => simp at h1
    subst hxs
    rw [splitLinesAux_nil, splitLinesAux_nil]
  | succ f ih =>
    intro xs f2 h1 h2
    cases xs with
    | nil => rw [splitLinesAux_nil, splitLinesAux_nil]
    | cons x rest =>
      cases f2 with
      | zero => simp at h2
      | succ g =>
        have hlt : (takeLine (x :: rest)).2.length < (x :: rest).length :=
          takeLine_snd_length_lt (by simp)
        simp only [List.length_cons] at h1 h2 hlt
        simp only [splitLinesAux, if_neg (List.cons_ne_nil x rest)]
        rw [ih (takeLine (x :: rest)).2 g (by omega) (by omega)]

theorem splitLines_nil : splitLines [] = [] := rfl

theorem splitLines_eq (xs : List Byte) (h : xs ≠ []) :
    splitLines xs = (takeLine xs).1 :: splitLines (takeLine xs).2 := by
  cases xs with
  | nil => exact absurd rfl h
  | cons x rest =>
    have hlt : (takeLine (x :: rest)).2.length < (x :: rest).length :=
      takeLine_snd_length_lt (by simp)
    show splitLinesAux (x :: rest).length (x :: rest) = _
    rw [List.length_cons]
    simp only [splitLinesAux, if_neg (List.cons_ne_nil x rest)]
    rw [splitLinesAux_congr rest.length (takeLine (x :: rest)).2
      (takeLine (x :: rest)).2.length (by simp [List.length_cons] at hlt; omega) le_rfl]
    rfl

theorem splitLines_eq_nil_iff (xs : List Byte) : splitLines xs = [] ↔ xs = [] := by
  constructor
  · intro h
    by_contra hne
    rw [splitLines_eq xs hne] at h
    exact List.cons_ne_nil _ _ h
  · intro h
    subst h
    rfl

theorem splitLines_flatten_aux : ∀ (n : Nat) (xs : List Byte), xs.length ≤ n →
    (splitLines xs).flatten = xs := by
  intro n
  induction n with
  | zero =>
    intro xs h
    have hxs : xs = [] := by
      cases xs with
      | nil => rfl
      | cons x r => simp at h
    subst hxs
    rfl
  | succ n ih =>
    intro xs h
    by_cases hxs : xs = []
    · subst hxs; rfl
    · have hlt := takeLine_snd_length_lt hxs
      rw [splitLines_eq xs hxs, List.flatten_cons, ih _ (by omega),
        takeLine_fst_append_snd]

theorem splitLines_flatten (xs : List Byte) : (splitLines xs).flatten = xs :=
  splitLines_flatten_aux xs.length xs le_rfl

theorem dropLast_drop_comm {α : Type _} : ∀ (l : List α) (n : Nat),
    (l.drop n).dropLast = l.dropLast.drop n := by
  intro l
  induction l with
  | nil => intro n; simp
  | cons b t ih =>
    intro n
    cases n with
    | zero => simp
    | succ n =>
      cases t with
      | nil => simp
      | cons c cs =>
        have h1 : (b :: c :: cs).dropLast = b :: (c :: cs).dropLast :=
          List.dropLast_cons_of_ne_nil (by simp)
        rw [List.drop_succ_cons, ih n, h1, List.drop_succ_cons]

theorem proper_nil : Proper [] := by
  constructor <;> simp

theorem proper_cons_iff (l : List Byte) (M : List (List Byte)) :
    Proper (l :: M) ↔ IsChunk l ∧ (M ≠ [] → l.getLast? = some newline) ∧ Proper M := by
  constructor
  · rintro ⟨h1, h2⟩
    refine ⟨h1 l (by simp), ?_, ?_, ?_⟩
    · intro hM
      apply h2
      cases M with
      | nil => exact absurd rfl hM
      | cons m ms =>
        rw [List.dropLast_cons_of_ne_nil (by simp)]
        simp
    · intro x hx
      exact h1 x (by simp [hx])
    · intro x hx
      apply h2
      cases M with
      | nil => simp at hx
      | cons m ms =>
        rw [List.dropLast_cons_of_ne_nil (by simp)]
        exact List.mem_cons_of_mem l hx
  · rintro ⟨hc, hnl, h1, h2⟩
    constructor
    · intro x hx
      rcases List.mem_cons.mp hx with h | h
      · subst h; exact hc
      · exact h1 x h
    · intro x hx
      cases M with
      | nil => simp at hx
      | cons m ms =>
        rw [List.dropLast_cons_of_ne_nil (by simp)] at hx
        rcases List.mem_cons.mp hx with h | h
        · subst h; exact hnl (by simp)
        · exact h2 x h

theorem proper_drop {M : List (List Byte)} (h : Proper M) (n : Nat) : Proper (M.drop n) := by
  rcases h with ⟨h1, h2⟩
  constructor
  · intro l hl
    exact h1 l (List.mem_of_mem_drop hl)
  · intro l hl
    rw [dropLast_drop_comm] at hl
    exact h2 l (List.mem_of_mem_drop hl)

theorem proper_splitLines_aux : ∀ (n : Nat) (xs : List Byte), xs.length ≤ n →
    Proper (splitLines xs) := by
  intro n
  induction n with
  | zero =>
    intro xs h
    have hxs : xs = [] := by
      cases xs with
      | nil => rfl
      | cons x r => simp at h
    subst hxs
    exact proper_nil
  | succ n ih =>
    intro xs h
    by_cases hxs : xs = []
    · subst hxs; exact proper_nil
    · have hlt := takeLine_snd_length_lt hxs
      rw [splitLines_eq xs hxs, proper_cons_iff]
      refine ⟨⟨takeLine_fst_ne_nil hxs, takeLine_fst_no_inner xs⟩, ?_, ih _ (by omega)⟩
      intro hM
      apply takeLine_getLast_of_snd_ne_nil
      intro heq
      exact hM ((splitLines_eq_nil_iff _).mpr heq)

theorem proper_splitLines (xs : List Byte) : Proper (splitLines xs) :=
  proper_splitLines_aux xs.length xs le_rfl

theorem takeLine_flatten_cons {l : List Byte} {ls : List (List Byte)} (h : Proper (l :: ls)) :
    takeLine (l ++ ls.flatten) = (l, ls.flatten) := by
  rw [proper_cons_iff] at h
  rcases h with ⟨hc, hnl, _⟩
  cases ls with
  | nil =>
    simp only [List.flatten_nil, List.append_nil]
    by_cases hl : l.getLast? = some newline
    · have := takeLine_append_of_nl l hc.2 hl []
      simpa using this
    · exact takeLine_of_no_nl l (chunk_no_nl hc hl)
  | cons m ms =>
    exact takeLine_append_of_nl l hc.2 (hnl (by simp)) _

theorem posOf_zero (M : List (List Byte)) : posOf M 0 = 0 := by
  cases M <;> rfl

theorem posOf_cons (l : List Byte) (ls : List (List Byte)) (j : Nat) :
    posOf (l :: ls) (j + 1) = l.length + posOf ls j := rfl

theorem lineCountUpto_le_length (M : List (List Byte)) : ∀ (s : Nat),
    lineCountUpto M s ≤ M.length := by
  induction M with
  | nil => intro s; simp [lineCountUpto]
  | cons l ls ih =>
    intro s
    simp only [lineCountUpto, List.length_cons]
    split
    · omega
    · have := ih (s - l.length)
      omega

theorem lineCountUpto_mono (M : List (List Byte)) : ∀ {s t : Nat}, s ≤ t →
    lineCountUpto M s ≤ lineCountUpto M t := by
  induction M with
  | nil => intro s t _; simp [lineCountUpto]
  | cons l ls ih =>
    intro s t h
    simp only [lineCountUpto]
    by_cases h1 : l.length > t
    · rw [if_pos (by omega), if_pos h1]
    · rw [if_neg h1]
      by_cases h2 : l.length > s
      · rw [if_pos h2]
        omega
      · rw [if_neg h2]
        have := ih (s := s - l.length) (t := t - l.length) (by omega)
        omega

theorem lineCountUpto_pos_or (M : List (List Byte)) : ∀ (s : Nat),
    lineCountUpto M s = M.length ∨ s < posOf M (lineCountUpto M s) := by
  induction M with
  | nil => intro s; left; simp [lineCountUpto]
  | cons l ls ih =>
    intro s
    simp only [lineCountUpto]
    by_cases h : l.length > s
    · right
      rw [if_pos h, posOf_cons, posOf_zero]
      omega
    · rw [if_neg h]
      rcases ih (s - l.length) with h1 | h1
      · left
        rw [h1, List.length_cons]
      · right
        rw [posOf_cons]
        omega

theorem lineCountUpto_lower (M : List (List Byte)) : ∀ (m s : Nat),
    m < M.length → posOf M m ≤ s → m < lineCountUpto M s := by
  induction M with
  | nil => intro m s h _; simp at h
  | cons l ls ih =>
    intro m s hm hp
    cases m with
    | zero =>
      simp only [lineCountUpto]
      split
      · omega
      · omega
    | succ k =>
      rw [posOf_cons] at hp
      simp only [lineCountUpto]
      rw [if_neg (by omega)]
      have := ih k (s - l.length) (by simp [List.length_cons] at hm; omega) (by omega)
      omega

theorem posOf_length_flatten : ∀ (M : List (List Byte)),
    posOf M M.length = M.flatten.length := by
  intro M
  induction M with
  | nil => rfl
  | cons l ls ih =>
    rw [List.length_cons, posOf_cons, ih, List.flatten_cons, List.length_append]

theorem lineCountUpto_eq_length (M : List (List Byte)) : ∀ (s : Nat),
    posOf M M.length ≤ s → lineCountUpto M s = M.length := by
  induction M with
  | nil => intro s _; rfl
  | cons l ls ih =>
    intro s h
    rw [List.length_cons, posOf_cons] at h
    have hls : posOf ls ls.length ≤ s - l.length := by omega
    simp only [lineCountUpto]
    rw [if_neg (by omega), ih _ hls, List.length_cons]

theorem lineCountUpto_comp (M : List (List Byte)) : ∀ (s t : Nat),
    posOf M (lineCountUpto M s) ≤ t →
    lineCountUpto M t
      = lineCountUpto M s
        + lineCountUpto (M.drop (lineCountUpto M s)) (t - posOf M (lineCountUpto M s)) := by
  induction M with
  | nil => intro s t _; simp [lineCountUpto]
  | cons l ls ih =>
    intro s t h
    by_cases hs : l.length > s
    · have hc : lineCountUpto (l :: ls) s = 1 := by
        simp only [lineCountUpto]
        rw [if_pos hs]
      rw [hc] at h ⊢
      rw [posOf_cons, posOf_zero, Nat.add_zero] at h ⊢
      simp only [lineCountUpto]
      rw [if_neg (by omega), List.drop_succ_cons, List.drop_zero]
      omega
    · have hc : lineCountUpto (l :: ls) s = lineCountUpto ls (s - l.length) + 1 := by
        simp only [lineCountUpto]
        rw [if_neg hs]
      rw [hc] at h ⊢
      rw [posOf_cons] at h ⊢
      have hlt : l.length ≤ t := by omega
      have ht : lineCountUpto (l :: ls) t = lineCountUpto ls (t - l.length) + 1 := by
        simp only [lineCountUpto]
        rw [if_neg (by omega)]
      rw [ht, List.drop_succ_cons]
      have ihh := ih (s - l.length) (t - l.length) (by omega)
      have harg : t - (l.length + posOf ls (lineCountUpto ls (s - l.length)))
          = (t - l.length) - posOf ls (lineCountUpto ls (s - l.length)) := by omega
      rw [harg, ihh]
      omega

theorem readLines_flatten : ∀ (M : List (List Byte)), Proper M → ∀ (t b : Nat),
    readLines M.flatten t b = M.take (lineCountUpto M (b - t)) := by
  intro M
  induction M with
  | nil => intro _ t b; simp [readLines_nil, lineCountUpto]
  | cons l ls ih =>
    intro hp t b
    have hcons := (proper_cons_iff l ls).mp hp
    have hlne : l ≠ [] := hcons.1.1
    have hlpos : 0 < l.length := List.length_pos.mpr hlne
    have htl : takeLine (l ++ ls.flatten) = (l, ls.flatten) := takeLine_flatten_cons hp
    have hne : l ++ ls.flatten ≠ [] := by
      intro hc
      exact hlne (List.append_eq_nil.mp hc).1
    rw [List.flatten_cons, readLines_eq _ hne, htl]
    by_cases hb : t + l.length > b
    · rw [if_pos hb]
      have hcount : lineCountUpto (l :: ls) (b - t) = 1 := by
        simp only [lineCountUpto]
        rw [if_pos (by omega)]
      rw [hcount]
      rfl
    · rw [if_neg hb, ih hcons.2.2 (t + l.length) b]
      have hcount : lineCountUpto (l :: ls) (b - t)
          = lineCountUpto ls (b - (t + l.length)) + 1 := by
        simp only [lineCountUpto]
        rw [if_neg (by omega)]
        have harg : (b - t) - l.length = b - (t + l.length) := by omega
        rw [harg]
      rw [hcount, List.take_succ_cons]

theorem takeLine_drop_head {l : List Byte} {ls : List (List Byte)} (hp : Proper (l :: ls))
    {s : Nat} (hs : s < l.length) :
    takeLine ((l :: ls).flatten.drop s) = (l.drop s, ls.flatten) := by
  have hcons := (proper_cons_iff l ls).mp hp
  have hc := hcons.1
  have hdrop : (l :: ls).flatten.drop s = l.drop s ++ ls.flatten := by
    rw [List.flatten_cons, List.drop_append_of_le_length (by omega)]
  have hinner : ∀ b ∈ (l.drop s).dropLast, b ≠ newline := by
    intro b hb
    rw [dropLast_drop_comm] at hb
    exact hc.2 b (List.mem_of_mem_drop hb)
  rw [hdrop]
  cases ls with
  | cons m ms =>
    have hlast : l.getLast? = some newline := hcons.2.1 (by simp)
    have hlast2 : (l.drop s).getLast? = some newline := by
      rw [List.getLast?_drop, if_neg (by omega), hlast]
    exact takeLine_append_of_nl _ hinner hlast2 _
  | nil =>
    simp only [List.flatten_nil, List.append_nil]
    by_cases hlast : l.getLast? = some newline
    · have hlast2 : (l.drop s).getLast? = some newline := by
        rw [List.getLast?_drop, if_neg (by omega), hlast]
      have := takeLine_append_of_nl (l.drop s) hinner hlast2 []
      simpa using this
    · have hnonl : ∀ b ∈ l, b ≠ newline := chunk_no_nl hc hlast
      exact takeLine_of_no_nl _ (fun b hb => hnonl b (List.mem_of_mem_drop hb))

theorem takeLine_drop_flatten : ∀ (M : List (List Byte)), Proper M → ∀ (s : Nat),
    (takeLine (M.flatten.drop s)).2 = (M.drop (lineCountUpto M s)).flatten
    ∧ (takeLine (M.flatten.drop s)).1.length = posOf M (lineCountUpto M s) - s := by
  intro M
  induction M with
  | nil =>
    intro _ s
    constructor <;> simp [takeLine_nil, lineCountUpto, posOf_zero]
  | cons l ls ih =>
    intro hp s
    have hcons := (proper_cons_iff l ls).mp hp
    by_cases hs : s < l.length
    · have htake := takeLine_drop_head hp hs
      have hcount : lineCountUpto (l :: ls) s = 1 := by
        simp only [lineCountUpto]
        rw [if_pos (by omega)]
      rw [htake, hcount]
      constructor
      · rw [List.drop_succ_cons, List.drop_zero]
      · rw [posOf_cons, posOf_zero, Nat.add_zero, List.length_drop]
    · have hflat : (l :: ls).flatten.drop s = ls.flatten.drop (s - l.length) := by
        rw [List.flatten_cons, List.drop_append_eq_append_drop,
          List.drop_eq_nil_iff.mpr (by omega), List.nil_append]
      have ihh := ih hcons.2.2 (s - l.length)
      have hcount : lineCountUpto (l :: ls) s = lineCountUpto ls (s - l.length) + 1 := by
        simp only [lineCountUpto]
        rw [if_neg (by omega)]
      rw [hflat, hcount]
      constructor
      · rw [ihh.1, List.drop_succ_cons]
      · rw [ihh.2, posOf_cons]
        omega

theorem worker_slice (file : List Byte) (s B : Nat) (hs : 0 < s)
    (hub : nextLineEnd file s ≤ s + B) :
    partially_read_lines file s B
      = ((splitLines file).take (lineCountUpto (splitLines file) (s + B))).drop
          (lineCountUpto (splitLines file) s) := by
  have hM : Proper (splitLines file) := proper_splitLines file
  have hflat : (splitLines file).flatten = file := splitLines_flatten file
  have hre := takeLine_drop_flatten (splitLines file) hM s
  rw [hflat] at hre
  have hunfold : partially_read_lines file s B
      = readLines (takeLine (file.drop s)).2 (takeLine (file.drop s)).1.length B := by
    simp [partially_read_lines, hs]
  rw [hunfold, hre.1, hre.2,
    readLines_flatten _ (proper_drop hM (lineCountUpto (splitLines file) s))]
  rcases lineCountUpto_pos_or (splitLines file) s with hcase | hcase
  · rw [hcase, List.drop_length, List.take_nil]
    symm
    rw [List.drop_eq_nil_iff, List.length_take]
    have := lineCountUpto_le_length (splitLines file) (s + B)
    omega
  · have hple : posOf (splitLines file) (lineCountUpto (splitLines file) s) ≤ s + B := by
      simp only [nextLineEnd] at hub
      omega
    have harg : B - (posOf (splitLines file) (lineCountUpto (splitLines file) s) - s)
        = (s + B) - posOf (splitLines file) (lineCountUpto (splitLines file) s) := by
      omega
    rw [harg]
    have hcomp := lineCountUpto_comp (splitLines file) s (s + B) hple
    rw [hcomp, List.drop_take, Nat.add_sub_cancel_left]

theorem take_append_drop_take {α : Type _} (L : List α) {a b : Nat} (hab : a ≤ b) :
    L.take a ++ (L.take b).drop a = L.take b := by
  have h1 : (L.take b).take a = L.take a := by
    rw [List.take_take, Nat.min_eq_left hab]
  calc
    L.take a ++ (L.take b).drop a = (L.take b).take a ++ (L.take b).drop a := by rw [h1]
    _ = L.take b := List.take_append_drop a (L.take b)

theorem flatten_map_nil {α β : Type _} (L : List α) :
    (L.map (fun _ => ([] : List β))).flatten = [] := by
  induction L with
  | nil => rfl
  | cons a L ih => simp [ih]

theorem workers_join (file : List Byte) (B : Nat) : ∀ (k : Nat), 1 ≤ k →
    (∀ i, 1 ≤ i → i < k → nextLineEnd file (i * B) ≤ (i + 1) * B) →
    workerLinesJoined file k B
      = (splitLines file).take (lineCountUpto (splitLines file) (k * B)) := by
  intro k
  induction k with
  | zero => intro h; omega
  | succ k ih =>
    intro _ hnov
    by_cases hk : k = 0
    · subst hk
      simp only [workerLinesJoined, List.range_succ, List.range_zero, List.nil_append,
        List.map_cons, List.map_nil, List.flatten_cons, List.flatten_nil, List.append_nil,
        Nat.zero_mul]
      have h0 : partially_read_lines file 0 B = readLines file 0 B := by
        simp [partially_read_lines]
      have hfl := readLines_flatten (splitLines file) (proper_splitLines file) 0 B
      rw [splitLines_flatten] at hfl
      rw [h0, hfl]
      norm_num
    · have hk1 : 1 ≤ k := by omega
      have hnov1 : ∀ i, 1 ≤ i → i < k → nextLineEnd file (i * B) ≤ (i + 1) * B :=
        fun i h1 h2 => hnov i h1 (by omega)
      have hrange : workerLinesJoined file (k + 1) B
          = workerLinesJoined file k B ++ partially_read_lines file (k * B) B := by
        simp [workerLinesJoined, List.range_succ]
      rw [hrange, ih hk1 hnov1]
      by_cases hB : B = 0
      · subst hB
        have h1 := hnov 1 le_rfl (by omega)
        simp only [nextLineEnd, Nat.mul_zero, Nat.zero_add] at h1
        have hfile : file = [] := by
          by_contra hne
          have h2 : (takeLine (file.drop 0)).1 ≠ [] := by
            rw [List.drop_zero]
            exact takeLine_fst_ne_nil hne
          have h3 : 0 < (takeLine (file.drop 0)).1.length := List.length_pos.mpr h2
          omega
        subst hfile
        simp [partially_read_lines, readLines_nil, splitLines_nil]
      · have hs : 0 < k * B := Nat.mul_pos (by omega) (by omega)
        have hub : nextLineEnd file (k * B) ≤ k * B + B := by
          have := hnov k hk1 (by omega)
          rw [Nat.succ_mul] at this
          exact this
        rw [worker_slice file (k * B) B hs hub, Nat.succ_mul]
        exact take_append_drop_take _ (lineCountUpto_mono _ (by omega))

theorem mergeDeltas_nil (m : AggMap) : mergeDeltas m [] = m := rfl

theorem mergeDeltas_cons (m : AggMap) (d : List Byte × Nat) (ds : List (List Byte × Nat)) :
    mergeDeltas m (d :: ds) = mergeDeltas (mergeEntry m d.1 (LogRegister.new d.2)) ds := rfl

theorem mergeDeltas_append (m : AggMap) (ds1 ds2 : List (List Byte × Nat)) :
    mergeDeltas m (ds1 ++ ds2) = mergeDeltas (mergeDeltas m ds1) ds2 := by
  simp [mergeDeltas, List.foldl_append]

theorem foldl_mergeDeltas (f : Nat → List (List Byte × Nat)) :
    ∀ (L : List Nat) (m : AggMap),
    L.foldl (fun acc i => mergeDeltas acc (f i)) m = mergeDeltas m ((L.map f).flatten) := by
  intro L
  induction L with
  | nil => intro m; rfl
  | cons a L ih =>
    intro m
    simp only [List.foldl_cons, List.map_cons, List.flatten_cons]
    rw [ih, mergeDeltas_append]

theorem filterMap_flatten {α β : Type _} (g : α → Option β) (L : List (List α)) :
    L.flatten.filterMap g = (L.map (List.filterMap g)).flatten := by
  induction L with
  | nil => rfl
  | cons l ls ih => simp [List.filterMap_append, ih]

theorem dashmap_eq_flat (decode : List Byte → Option (List Byte)) (k : Nat) (file : List Byte) :
    multi_thread_parser_dashmap decode k file
      = mergeDeltas []
          (((List.range k).map (fun i =>
            partially_read_file decode file (i * bytesPortion file.length k)
              (bytesPortion file.length k))).flatten) := by
  simp only [multi_thread_parser_dashmap]
  rw [foldl_mergeDeltas]

theorem joined_filterMap (decode : List Byte → Option (List Byte)) (k : Nat) (file : List Byte) :
    ((List.range k).map (fun i =>
        partially_read_file decode file (i * bytesPortion file.length k)
          (bytesPortion file.length k))).flatten
      = (workerLinesJoined file k (bytesPortion file.length k)).filterMap (deltaOf decode) := by
  simp only [workerLinesJoined]
  rw [filterMap_flatten, List.map_map]
  rfl

theorem foldl_append_eq {α β : Type _} (f : β → List α) :
    ∀ (L : List β) (acc : List α),
    L.foldl (fun a i => a ++ f i) acc = acc ++ (L.map f).flatten := by
  intro L
  induction L with
  | nil => intro acc; simp
  | cons a L ih =>
    intro acc
    simp only [List.foldl_cons, List.map_cons, List.flatten_cons]
    rw [ih, List.append_assoc]

theorem foldl_mergeEntry_map (ds : List (List Byte × Nat)) (m : AggMap) :
    (ds.map (fun d => (d.1, LogRegister.new d.2))).foldl
        (fun m p => mergeEntry m p.1 p.2) m
      = mergeDeltas m ds := by
  rw [List.foldl_map]
  rfl

theorem channel_eq_flat (decode : List Byte → Option (List Byte)) (k : Nat) (file : List Byte) :
    multi_thread_parser_channel decode k file
      = mergeDeltas []
          (((List.range k).map (fun i =>
            partially_read_file decode file (i * bytesPortion file.length k)
              (bytesPortion file.length k))).flatten) := by
  simp only [multi_thread_parser_channel]
  rw [foldl_append_eq, List.nil_append]
  have hmsg : ((List.range k).map (fun idx =>
      (partially_read_file decode file (idx * bytesPortion file.length k)
        (bytesPortion file.length k)).map (fun d => (d.1, LogRegister.new d.2)))).flatten
      = (((List.range k).map (fun i =>
          partially_read_file decode file (i * bytesPortion file.length k)
            (bytesPortion file.length k))).flatten).map
          (fun d => (d.1, LogRegister.new d.2)) := by
    rw [List.map_flatten, List.map_map]
    rfl
  rw [hmsg, foldl_mergeEntry_map]

theorem singleThread_eq (decode : List Byte → Option (List Byte)) (file : List Byte) :
    singleThreadParser decode file
      = mergeDeltas [] ((splitLines file).filterMap (deltaOf decode)) := by
  suffices h : ∀ (L : List (List Byte)) (m : AggMap),
      L.foldl (fun m l =>
        match deltaOf decode l with
        | some d => mergeEntry m d.1 (LogRegister.new d.2)
        | none => m) m = mergeDeltas m (L.filterMap (deltaOf decode)) by
    exact h _ []
  intro L
  induction L with
  | nil => intro m; rfl
  | cons l ls ih =>
    intro m
    rw [List.foldl_cons, List.filterMap_cons]
    cases hdec : deltaOf decode l with
    | none =>
      simp only [hdec]
      exact ih m
    | some d =>
      simp only [hdec]
      rw [ih, mergeDeltas_cons]

theorem dashmap_assigned (decode : List Byte → Option (List Byte)) (file : List Byte)
    (k : Nat) (hk : 1 ≤ k)
    (hres : ∀ i, 1 ≤ i → i < k →
      nextLineEnd file (i * bytesPortion file.length k)
        ≤ (i + 1) * bytesPortion file.length k) :
    multi_thread_parser_dashmap decode k file
      = mergeDeltas [] ((assignedLines file k).filterMap (deltaOf decode)) := by
  rw [dashmap_eq_flat, joined_filterMap,
    workers_join file (bytesPortion file.length k) k hk hres]
  rfl

theorem assigned_all (file : List Byte) (k : Nat)
    (h : k * bytesPortion file.length k = file.length) :
    assignedLines file k = splitLines file := by
  simp only [assignedLines]
  rw [h, lineCountUpto_eq_length]
  · exact List.take_length _
  · rw [posOf_length_flatten, splitLines_flatten]

theorem mem_readLinesAux_ne_nil : ∀ (f : Nat) (xs : List Byte) (t b : Nat) (l : List Byte),
    l ∈ readLinesAux f xs t b → l ≠ [] := by
  intro f
  induction f with
  | zero => intro xs t b l h; simp [readLinesAux] at h
  | succ f ih =>
    intro xs t b l h
    by_cases hxs : xs = []
    · subst hxs
      rw [readLinesAux_nil] at h
      simp at h
    · simp only [readLinesAux, if_neg hxs] at h
      split at h
      · have hl : l = (takeLine xs).1 := by simpa using h
        rw [hl]
        exact takeLine_fst_ne_nil hxs
      · rcases List.mem_cons.mp h with h1 | h1
        · rw [h1]
          exact takeLine_fst_ne_nil hxs
        · exact ih _ _ _ _ h1

theorem mem_readLines_ne_nil (xs : List Byte) (t b : Nat) (l : List Byte)
    (h : l ∈ readLines xs t b) : l ≠ [] :=
  mem_readLinesAux_ne_nil _ _ _ _ _ h

theorem mem_partially_read_lines_ne_nil (file : List Byte) (s b : Nat) (l : List Byte)
    (h : l ∈ partially_read_lines file s b) : l ≠ [] := by
  simp only [partially_read_lines] at h
  exact mem_readLines_ne_nil _ _ _ _ h

theorem mem_workerLinesJoined_ne_nil (file : List Byte) (k bp : Nat) (l : List Byte)
    (h : l ∈ workerLinesJoined file k bp) : l ≠ [] := by
  simp only [workerLinesJoined, List.mem_flatten] at h
  rcases h with ⟨w, hw, hl⟩
  rcases List.mem_map.mp hw with ⟨i, _, hwi⟩
  rw [← hwi] at hl
  exact mem_partially_read_lines_ne_nil _ _ _ _ hl

theorem mem_splitLines_ne_nil (file : List Byte) (l : List Byte)
    (h : l ∈ splitLines file) : l ≠ [] :=
  ((proper_splitLines file).1 l h).1

theorem deltaOf_mem_pos (decode : List Byte → Option (List Byte)) :
    ∀ (L : List (List Byte)), (∀ l ∈ L, l ≠ []) →
    ∀ d ∈ L.filterMap (deltaOf decode), 1 ≤ d.2 := by
  intro L
  induction L with
  | nil => intro _ d hd; simp at hd
  | cons l ls ih =>
    intro h d hd
    rw [List.filterMap_cons] at hd
    cases hdec : deltaOf decode l with
    | none =>
      rw [hdec] at hd
      exact ih (fun x hx => h x (List.mem_cons_of_mem l hx)) d hd
    | some v =>
      rw [hdec] at hd
      rcases List.mem_cons.mp hd with h1 | h1
      · have hlen : v.2 = l.length := by
          simp only [deltaOf, Option.map_eq_some'] at hdec
          rcases hdec with ⟨c, _, hv⟩
          rw [← hv]
        have hpos : 0 < l.length := List.length_pos.mpr (h l (by simp))
        rw [h1, hlen]
        omega
      · exact ih (fun x hx => h x (List.mem_cons_of_mem l hx)) d h1

theorem sumBytes_nil : sumBytes [] = 0 := rfl

theorem sumBytes_cons (d : List Byte × Nat) (ds : List (List Byte × Nat)) :
    sumBytes (d :: ds) = d.2 + sumBytes ds := by
  simp [sumBytes]

theorem sumLens_cons (l : List Byte) (M : List (List Byte)) :
    sumLens (l :: M) = l.length + sumLens M := by
  simp [sumLens]

theorem sumLens_append (M N : List (List Byte)) :
    sumLens (M ++ N) = sumLens M + sumLens N := by
  simp [sumLens]

theorem sumLens_eq_flatten_length (M : List (List Byte)) :
    sumLens M = M.flatten.length := by
  rw [sumLens, List.length_flatten]

theorem sumLens_take_le (M : List (List Byte)) : ∀ (n : Nat),
    sumLens (M.take n) ≤ sumLens M := by
  induction M with
  | nil => intro n; simp [sumLens]
  | cons l ls ih =>
    intro n
    cases n with
    | zero => simp [sumLens]
    | succ n =>
      rw [List.take_succ_cons, sumLens_cons, sumLens_cons]
      have := ih n
      omega

theorem sumLens_drop_le (M : List (List Byte)) : ∀ (n : Nat),
    sumLens (M.drop n) ≤ sumLens M := by
  induction M with
  | nil => intro n; simp [sumLens]
  | cons l ls ih =>
    intro n
    cases n with
    | zero => simp
    | succ n =>
      rw [List.drop_succ_cons, sumLens_cons]
      have := ih n
      omega

theorem sumBytes_filterMap_le (decode : List Byte → Option (List Byte)) :
    ∀ (L : List (List Byte)), sumBytes (L.filterMap (deltaOf decode)) ≤ sumLens L := by
  intro L
  induction L with
  | nil => simp [sumBytes, sumLens]
  | cons l ls ih =>
    rw [sumLens_cons]
    cases hdec : deltaOf decode l with
    | none =>
      rw [List.filterMap_cons_none hdec]
      omega
    | some v =>
      rw [List.filterMap_cons_some hdec, sumBytes_cons]
      have hlen : v.2 = l.length := by
        simp only [deltaOf, Option.map_eq_some'] at hdec
        rcases hdec with ⟨c, _, hv⟩
        rw [← hv]
      omega

theorem partially_read_lines_bounds (file : List Byte) (s b : Nat) :
    (partially_read_lines file s b).length ≤ (splitLines file).length
    ∧ sumLens (partially_read_lines file s b) ≤ file.length := by
  have hM : Proper (splitLines file) := proper_splitLines file
  by_cases hs : 0 < s
  · have hre := takeLine_drop_flatten (splitLines file) hM s
    rw [splitLines_flatten] at hre
    have hunfold : partially_read_lines file s b
        = readLines (takeLine (file.drop s)).2 (takeLine (file.drop s)).1.length b := by
      simp [partially_read_lines, hs]
    rw [hunfold, hre.1,
      readLines_flatten _ (proper_drop hM (lineCountUpto (splitLines file) s))]
    constructor
    · have h1 := List.length_take_le'
        (lineCountUpto ((splitLines file).drop (lineCountUpto (splitLines file) s))
          (b - ((takeLine (file.drop s)).1.length)))
        ((splitLines file).drop (lineCountUpto (splitLines file) s))
      have h2 := List.length_drop (lineCountUpto (splitLines file) s) (splitLines file)
      omega
    · calc
        sumLens (((splitLines file).drop (lineCountUpto (splitLines file) s)).take _)
            ≤ sumLens ((splitLines file).drop (lineCountUpto (splitLines file) s)) :=
          sumLens_take_le _ _
        _ ≤ sumLens (splitLines file) := sumLens_drop_le _ _
        _ = file.length := by rw [sumLens_eq_flatten_length, splitLines_flatten]
  · have hs0 : s = 0 := by omega
    subst hs0
    have hunfold : partially_read_lines file 0 b = readLines file 0 b := by
      simp [partially_read_lines]
    have hfl := readLines_flatten (splitLines file) hM 0 b
    rw [splitLines_flatten] at hfl
    rw [hunfold, hfl]
    constructor
    · have h1 := List.length_take_le' (lineCountUpto (splitLines file) (b - 0)) (splitLines file)
      omega
    · calc
        sumLens ((splitLines file).take (lineCountUpto (splitLines file) (b - 0)))
            ≤ sumLens (splitLines file) := sumLens_take_le _ _
        _ = file.length := by rw [sumLens_eq_flatten_length, splitLines_flatten]

theorem workerLinesJoined_bounds (file : List Byte) (bp : Nat) : ∀ (k : Nat),
    (workerLinesJoined file k bp).length ≤ k * (splitLines file).length
    ∧ sumLens (workerLinesJoined file k bp) ≤ k * file.length := by
  intro k
  induction k with
  | zero =>
    simp [workerLinesJoined, sumLens]
  | succ k ih =>
    have hrange : workerLinesJoined file (k + 1) bp
        = workerLinesJoined file k bp ++ partially_read_lines file (k * bp) bp := by
      simp [workerLinesJoined, List.range_succ]
    have hw := partially_read_lines_bounds file (k * bp) bp
    rw [hrange, List.length_append, sumLens_append, Nat.succ_mul, Nat.succ_mul]
    exact ⟨Nat.add_le_add ih.1 hw.1, Nat.add_le_add ih.2 hw.2⟩

theorem mergeEntry_new_bounded : ∀ (m : AggMap) (c : List Byte) (x L S : Nat),
    1 ≤ x → x + S < 18446744073709551616 → 1 + L < 4294967296 →
    (∀ e ∈ m, 1 ≤ e.2.counter ∧ e.2.counter ≤ e.2.num_of_bytes
      ∧ e.2.counter + (L + 1) < 4294967296
      ∧ e.2.num_of_bytes + (x + S) < 18446744073709551616) →
    ∀ e ∈ mergeEntry m c (LogRegister.new x),
      1 ≤ e.2.counter ∧ e.2.counter ≤ e.2.num_of_bytes
      ∧ e.2.counter + L < 4294967296
      ∧ e.2.num_of_bytes + S < 18446744073709551616 := by
  intro m
  induction m with
  | nil =>
    intro c x L S hx hxS hL _ e he
    have he2 : e = (c, LogRegister.zero.add (LogRegister.new x)) := by
      simpa [mergeEntry] using he
    rw [he2]
    simp only [LogRegister.add, LogRegister.zero, LogRegister.new]
    omega
  | cons kv rest ih =>
    intro c x L S hx hxS hL hm e he
    rcases kv with ⟨k, v⟩
    simp only [mergeEntry] at he
    split at he
    · rcases List.mem_cons.mp he with h | h
      · have hv := hm (k, v) (by simp)
        rw [h]
        simp only [LogRegister.add, LogRegister.new]
        simp only at hv
        omega
      · have hv := hm e (List.mem_cons_of_mem _ h)
        exact ⟨hv.1, hv.2.1, by omega, by omega⟩
    · rcases List.mem_cons.mp he with h | h
      · have hv := hm (k, v) (by simp)
        rw [h]
        exact ⟨hv.1, hv.2.1, by omega, by omega⟩
      · exact ih c x L S hx hxS hL (fun y hy => hm y (List.mem_cons_of_mem _ hy)) e h

theorem mergeDeltas_new_bounded : ∀ (ds : List (List Byte × Nat)) (m : AggMap),
    (∀ d ∈ ds, 1 ≤ d.2) →
    ds.length < 4294967296 →
    sumBytes ds < 18446744073709551616 →
    (∀ e ∈ m, 1 ≤ e.2.counter ∧ e.2.counter ≤ e.2.num_of_bytes
      ∧ e.2.counter + ds.length < 4294967296
      ∧ e.2.num_of_bytes + sumBytes ds < 18446744073709551616) →
    ∀ e ∈ mergeDeltas m ds, 1 ≤ e.2.counter ∧ e.2.counter ≤ e.2.num_of_bytes := by
  intro ds
  induction ds with
  | nil =>
    intro m _ _ _ hm e he
    rw [mergeDeltas_nil] at he
    exact ⟨(hm e he).1, (hm e he).2.1⟩
  | cons d rest ih =>
    intro m hds hlen hsum hm e he
    rw [mergeDeltas_cons] at he
    rw [sumBytes_cons] at hsum
    rw [List.length_cons] at hlen
    refine ih _ (fun x hx => hds x (List.mem_cons_of_mem d hx)) (by omega) (by omega) ?_ e he
    apply mergeEntry_new_bounded m d.1 d.2 rest.length (sumBytes rest)
    · exact hds d (by simp)
    · omega
    · omega
    · intro y hy
      have h4 := hm y hy
      simp only [List.length_cons, sumBytes_cons] at h4
      exact ⟨h4.1, h4.2.1, h4.2.2.1, h4.2.2.2⟩

theorem proper_replicate (n : Nat) (l : List Byte) (hc : IsChunk l)
    (hnl : l.getLast? = some newline) : Proper (List.replicate n l) := by
  induction n with
  | zero => exact proper_nil
  | succ n ih =>
    rw [List.replicate_succ, proper_cons_iff]
    exact ⟨hc, fun _ => hnl, ih⟩

theorem splitLines_flatten_inv : ∀ (M : List (List Byte)), Proper M →
    splitLines M.flatten = M := by
  intro M
  induction M with
  | nil => intro _; rfl
  | cons l ls ih =>
    intro hp
    have hne2 : l ++ ls.flatten ≠ [] := by
      intro hcon
      exact ((proper_cons_iff l ls).mp hp).1.1 (List.append_eq_nil.mp hcon).1
    rw [List.flatten_cons, splitLines_eq _ hne2, takeLine_flatten_cons hp,
      ih ((proper_cons_iff l ls).mp hp).2.2]

theorem filterMap_replicate {α β : Type _} (f : α → Option β) (a : α) (b : β)
    (h : f a = some b) : ∀ (n : Nat),
    (List.replicate n a).filterMap f = List.replicate n b := by
  intro n
  induction n with
  | zero => rfl
  | succ n ih =>
    rw [List.replicate_succ, List.filterMap_cons_some h, ih, List.replicate_succ]

theorem mergeDeltas_replicate (c : List Byte) (x : Nat) :
    ∀ (n : Nat) (v : LogRegister), v.counter < 4294967296 →
    v.num_of_bytes < 18446744073709551616 →
    mergeDeltas [(c, v)] (List.replicate n (c, x))
      = [(c, { counter := (v.counter + n) % 4294967296,
               num_of_bytes := (v.num_of_bytes + n * x) % 18446744073709551616 })] := by
  intro n
  induction n with
  | zero =>
    intro v h1 h2
    cases v with
    | mk a b =>
      rw [List.replicate_zero, mergeDeltas_nil]
      simp only [Nat.add_zero, Nat.zero_mul]
      rw [Nat.mod_eq_of_lt h1, Nat.mod_eq_of_lt h2]
  | succ n ih =>
    intro v h1 h2
    rw [List.replicate_succ, mergeDeltas_cons]
    have hme : mergeEntry [(c, v)] c (LogRegister.new x)
        = [(c, v.add (LogRegister.new x))] := by
      simp [mergeEntry]
    rw [hme]
    have h1a : (v.add (LogRegister.new x)).counter < 4294967296 := by
      simp only [LogRegister.add]
      exact Nat.mod_lt _ (by norm_num)
    have h2a : (v.add (LogRegister.new x)).num_of_bytes < 18446744073709551616 := by
      simp only [LogRegister.add]
      exact Nat.mod_lt _ (by norm_num)
    rw [ih (v.add (LogRegister.new x)) h1a h2a]
    have hreg1 : ((v.add (LogRegister.new x)).counter + n) % 4294967296
        = (v.counter + (n + 1)) % 4294967296 := by
      simp only [LogRegister.add, LogRegister.new]
      rw [Nat.mod_add_mod]
      congr 1
      omega
    have hreg2 : ((v.add (LogRegister.new x)).num_of_bytes + n * x) % 18446744073709551616
        = (v.num_of_bytes + (n + 1) * x) % 18446744073709551616 := by
      simp only [LogRegister.add, LogRegister.new]
      rw [Nat.mod_add_mod]
      congr 1
      ring
    rw [hreg1, hreg2]

/-- C1 (corrected): the original claim asserts that for every file and every
worker count the workers consume the assigned lines without overlap or gap;
this fails when a resynchronization discard runs past the start of the next
partition (a line covering a whole partition), as witnessed by this
counterexample: in the 42-byte straddle file scanned by three workers, the
final record (category b) is consumed by two workers, so the merged dashmap
aggregate differs from the single-worker scan. -/
theorem C1_counterexample :
    multi_thread_parser_dashmap decodeRecord 3 straddleFile
      ≠ singleThreadParser decodeRecord straddleFile
    ∧ lookupCat (multi_thread_parser_dashmap decodeRecord 3 straddleFile) [98]
        = some { counter := 2, num_of_bytes := 26 }
    ∧ lookupCat (singleThreadParser decodeRecord straddleFile) [98]
        = some { counter := 1, num_of_bytes := 13 } := by
  refine ⟨?_, by decide, by decide⟩
  decide

/-- C1 (amended): for every file and worker count at least 1 such that no
resynchronization point overshoots the start of the following partition,
the workers jointly consume exactly the assigned lines (those starting at
byte offset at most workerCount times the byte budget), each exactly once
and in file order; hence the merged dashmap aggregate equals the aggregate
of exactly those lines, and when the budgets cover the file exactly (in
particular when the worker count divides the file size) it equals the
single-worker whole-file aggregate. -/
theorem C1_partition (decode : List Byte → Option (List Byte)) (file : List Byte) (k : Nat)
    (hk : 1 ≤ k)
    (hres : ∀ i, 1 ≤ i → i < k →
      nextLineEnd file (i * bytesPortion file.length k)
        ≤ (i + 1) * bytesPortion file.length k) :
    workerLinesJoined file k (bytesPortion file.length k) = assignedLines file k
    ∧ multi_thread_parser_dashmap decode k file
        = mergeDeltas [] ((assignedLines file k).filterMap (deltaOf decode))
    ∧ (k * bytesPortion file.length k = file.length →
        multi_thread_parser_dashmap decode k file = singleThreadParser decode file) := by
  refine ⟨?_, dashmap_assigned decode file k hk hres, ?_⟩
  · rw [workers_join file (bytesPortion file.length k) k hk hres]
    rfl
  · intro hsize
    rw [dashmap_assigned decode file k hk hres, assigned_all file k hsize, singleThread_eq]

/-- Witness for C1: the amended claim applied to the three-line sample file
scanned by three workers, whose resynchronization points land exactly on the
partition boundaries. -/
theorem C1_partition_witness :
    workerLinesJoined sampleFile 3 (bytesPortion sampleFile.length 3) = assignedLines sampleFile 3
    ∧ multi_thread_parser_dashmap decodeRecord 3 sampleFile
        = mergeDeltas [] ((assignedLines sampleFile 3).filterMap (deltaOf decodeRecord))
    ∧ (3 * bytesPortion sampleFile.length 3 = sampleFile.length →
        multi_thread_parser_dashmap decodeRecord 3 sampleFile
          = singleThreadParser decodeRecord sampleFile) :=
  C1_partition decodeRecord sampleFile 3 (by decide)
    (by
      intro i h1 h2
      have h3 : i = 1 ∨ i = 2 := by omega
      rcases h3 with h | h <;> subst h <;> decide)

/-- C2: the scanning loop consumes a prefix of the whole lines of its input,
never splitting a line; every line whose first byte is read while the
consumed total is still within the budget is consumed whole by that worker;
and the loop stops before end of input only when the consumed total has
exceeded the budget. -/
theorem C2_loop_termination (xs : List Byte) (t b : Nat) :
    readLines xs t b = (splitLines xs).take (lineCountUpto (splitLines xs) (b - t))
    ∧ (∀ m, m < (splitLines xs).length → t + posOf (splitLines xs) m ≤ b →
        m < lineCountUpto (splitLines xs) (b - t))
    ∧ (lineCountUpto (splitLines xs) (b - t) < (splitLines xs).length →
        b < t + posOf (splitLines xs) (lineCountUpto (splitLines xs) (b - t))) := by
  refine ⟨?_, ?_, ?_⟩
  · have h := readLines_flatten (splitLines xs) (proper_splitLines xs) t b
    rwa [splitLines_flatten] at h
  · intro m hm hp
    exact lineCountUpto_lower _ m (b - t) hm (by omega)
  · intro hlt
    rcases lineCountUpto_pos_or (splitLines xs) (b - t) with h | h
    · omega
    · omega

/-- Witness for C2: in the sample file under byte budget 20, the second
line starts at byte 13, within the budget, and is therefore consumed. -/
theorem C2_witness : 1 < lineCountUpto (splitLines sampleFile) (20 - 0) :=
  (C2_loop_termination sampleFile 0 20).2.1 1 (by decide) (by decide)

/-- C3: when the worker count divides the file size and no line spans a
partition pathologically (no resynchronization point overshoots the next
partition boundary, the precise rendering of the boundary proviso), the
parser run with worker count k returns the same aggregate map as the parser
run with worker count 1. -/
theorem C3_worker_count_invariance (decode : List Byte → Option (List Byte))
    (file : List Byte) (k : Nat) (hk : 1 ≤ k) (hdvd : k ∣ file.length)
    (hres : ∀ i, 1 ≤ i → i < k →
      nextLineEnd file (i * bytesPortion file.length k)
        ≤ (i + 1) * bytesPortion file.length k) :
    multi_thread_parser_dashmap decode k file = multi_thread_parser_dashmap decode 1 file := by
  have hsize_k : k * bytesPortion file.length k = file.length := by
    have h1 := Nat.div_mul_cancel hdvd
    simp only [bytesPortion]
    rw [Nat.mul_comm]
    exact h1
  have hsize_1 : 1 * bytesPortion file.length 1 = file.length := by
    simp [bytesPortion]
  have hres1 : ∀ i, 1 ≤ i → i < 1 →
      nextLineEnd file (i * bytesPortion file.length 1)
        ≤ (i + 1) * bytesPortion file.length 1 := by
    intro i h1 h2
    exact absurd h1 (by omega)
  rw [dashmap_assigned decode file k hk hres, dashmap_assigned decode file 1 le_rfl hres1,
    assigned_all file k hsize_k, assigned_all file 1 hsize_1]

/-- Witness for C3: the sample file (39 bytes) with three workers versus one
worker. -/
theorem C3_witness :
    multi_thread_parser_dashmap decodeRecord 3 sampleFile
      = multi_thread_parser_dashmap decodeRecord 1 sampleFile :=
  C3_worker_count_invariance decodeRecord sampleFile 3 (by decide) (by decide)
    (by
      intro i h1 h2
      have h3 : i = 1 ∨ i = 2 := by omega
      rcases h3 with h | h <;> subst h <;> decide)

/-- C4: for every input file and worker count, the channel strategy and the
dashmap strategy produce the same aggregate map: both merge exactly the same
stream of per-line deltas, and merging is insensitive to the strategy. -/
theorem C4_strategies_interchangeable (decode : List Byte → Option (List Byte))
    (k : Nat) (file : List Byte) (_hk : 1 ≤ k) :
    multi_thread_parser_channel decode k file = multi_thread_parser_dashmap decode k file := by
  rw [channel_eq_flat, dashmap_eq_flat]

/-- Witness for C4: both strategies on the sample file with two workers. -/
theorem C4_witness :
    multi_thread_parser_channel decodeRecord 2 sampleFile
      = multi_thread_parser_dashmap decodeRecord 2 sampleFile :=
  C4_strategies_interchangeable decodeRecord 2 sampleFile (by decide)

/-- C5: the concrete scenario: the 39-byte three-line sample file parsed
with one worker yields exactly the two entries a with counter 2 and 26
bytes, and b with counter 1 and 13 bytes. -/
theorem C5_concrete_scenario :
    multi_thread_parser_dashmap decodeRecord 1 sampleFile
      = [([97], { counter := 2, num_of_bytes := 26 }),
         ([98], { counter := 1, num_of_bytes := 13 })] := by
  decide

/-- C6: when the line at the head of the remaining input fails to decode,
the scan emits no delta for it, still adds its byte length to the consumed
total used for budget termination, and continues with the next line unless
that total now exceeds the budget. -/
theorem C6_decode_failure (decode : List Byte → Option (List Byte)) (xs : List Byte)
    (t b : Nat) (hne : xs ≠ []) (hfail : decode (takeLine xs).1 = none) :
    (readLines xs t b).filterMap (deltaOf decode)
      = (if t + (takeLine xs).1.length > b then []
         else (readLines (takeLine xs).2 (t + (takeLine xs).1.length) b).filterMap
           (deltaOf decode))
    ∧ readLines xs t b
      = (if t + (takeLine xs).1.length > b then [(takeLine xs).1]
         else (takeLine xs).1 :: readLines (takeLine xs).2 (t + (takeLine xs).1.length) b) := by
  constructor
  · rw [readLines_eq xs hne]
    by_cases hb : t + (takeLine xs).1.length > b
    · rw [if_pos hb, if_pos hb]
      simp [deltaOf, hfail]
    · rw [if_neg hb, if_neg hb, List.filterMap_cons]
      simp [deltaOf, hfail]
  · exact readLines_eq xs hne t b

/-- Witness for C6: the malformed 4-byte first line of the malformed file
contributes no delta while its length still advances the consumed total. -/
theorem C6_witness :
    (readLines malformedFile 0 30).filterMap (deltaOf decodeRecord)
      = (if 0 + (takeLine malformedFile).1.length > 30 then []
         else (readLines (takeLine malformedFile).2
             (0 + (takeLine malformedFile).1.length) 30).filterMap (deltaOf decodeRecord))
    ∧ readLines malformedFile 0 30
      = (if 0 + (takeLine malformedFile).1.length > 30 then [(takeLine malformedFile).1]
         else (takeLine malformedFile).1
           :: readLines (takeLine malformedFile).2
               (0 + (takeLine malformedFile).1.length) 30) :=
  C6_decode_failure decodeRecord malformedFile 0 30 (by decide) (by decide)

/-- C7: for a positive start offset the scanner discards exactly the bytes
up to and including the next line terminator (the discarded fragment has no
terminator before its last byte, and ends with one whenever input remains),
initialises the consumed total with the discarded length, and hands only
the subsequent lines to the handler; for start offset 0 nothing is
discarded and scanning begins at the first line. -/
theorem C7_resynchronization (decode : List Byte → Option (List Byte)) (file : List Byte)
    (s b : Nat) :
    (0 < s →
      partially_read_lines file s b
        = readLines (takeLine (file.drop s)).2 (takeLine (file.drop s)).1.length b
      ∧ partially_read_file decode file s b
        = (readLines (takeLine (file.drop s)).2
            (takeLine (file.drop s)).1.length b).filterMap (deltaOf decode)
      ∧ (takeLine (file.drop s)).1 ++ (takeLine (file.drop s)).2 = file.drop s
      ∧ (∀ x ∈ (takeLine (file.drop s)).1.dropLast, x ≠ newline)
      ∧ ((takeLine (file.drop s)).2 ≠ [] →
          (takeLine (file.drop s)).1.getLast? = some newline))
    ∧ (s = 0 → partially_read_lines file s b = readLines file 0 b) := by
  constructor
  · intro hs
    refine ⟨?_, ?_, takeLine_fst_append_snd _, takeLine_fst_no_inner _,
      takeLine_getLast_of_snd_ne_nil _⟩
    · simp [partially_read_lines, hs]
    · simp [partially_read_file, partially_read_lines, hs]
  · intro hs
    subst hs
    simp [partially_read_lines]

/-- Witness for C7: worker resynchronization at byte 13 of the sample file
discards exactly the second line, whose first byte sits at the partition
boundary. -/
theorem C7_witness :
    partially_read_lines sampleFile 13 13
      = readLines (takeLine (sampleFile.drop 13)).2 (takeLine (sampleFile.drop 13)).1.length 13
    ∧ partially_read_file decodeRecord sampleFile 13 13
      = (readLines (takeLine (sampleFile.drop 13)).2
          (takeLine (sampleFile.drop 13)).1.length 13).filterMap (deltaOf decodeRecord)
    ∧ (takeLine (sampleFile.drop 13)).1 ++ (takeLine (sampleFile.drop 13)).2 = sampleFile.drop 13
    ∧ (∀ x ∈ (takeLine (sampleFile.drop 13)).1.dropLast, x ≠ newline)
    ∧ ((takeLine (sampleFile.drop 13)).2 ≠ [] →
        (takeLine (sampleFile.drop 13)).1.getLast? = some newline) :=
  (C7_resynchronization decodeRecord sampleFile 13 13).1 (by decide)

/-- C8: merging is commutative and associative: folding two deltas into a
zero register in either order gives the same register, and the underlying
componentwise addition is commutative and associative, the basis for merge
correctness under arbitrary interleaving. -/
theorem C8_merge_algebra (d1 d2 d3 : LogRegister) :
    (LogRegister.zero.add d1).add d2 = (LogRegister.zero.add d2).add d1
    ∧ d1.add d2 = d2.add d1
    ∧ (d1.add d2).add d3 = d1.add (d2.add d3) := by
  cases d1
  cases d2
  cases d3
  refine ⟨?_, ?_, ?_⟩ <;>
    · simp only [LogRegister.add, LogRegister.zero, LogRegister.mk.injEq]
      constructor <;> omega

/-- C9: the partitioner computes the byte budget by truncating division and
worker start offsets as multiples of it; consequently the combined nominal
budgets never exceed the file size and leave at most workerCount - 1
trailing bytes uncovered. -/
theorem C9_partitioner (size k : Nat) (hk : 1 ≤ k) :
    (∀ i, startIdxOf i size k = i * bytesPortion size k)
    ∧ k * bytesPortion size k ≤ size
    ∧ size - k * bytesPortion size k ≤ k - 1 := by
  have key : ∀ q r : Nat, k * (size / k) = q → size % k = r → k * (size / k) + size % k = size →
      r < k → q ≤ size ∧ size - q ≤ k - 1 := by
    intro q r hq hr h3 h4
    rw [hq, hr] at h3
    omega
  have h1 := Nat.div_add_mod size k
  have h2 : size % k < k := Nat.mod_lt _ (by omega)
  have hk2 := key (k * (size / k)) (size % k) rfl rfl h1 h2
  exact ⟨fun i => rfl, hk2.1, hk2.2⟩

/-- Witness for C9: the partitioner on a 39-byte file with three workers. -/
theorem C9_witness :
    (∀ i, startIdxOf i 39 3 = i * bytesPortion 39 3)
    ∧ 3 * bytesPortion 39 3 ≤ 39
    ∧ 39 - 3 * bytesPortion 39 3 ≤ 3 - 1 :=
  C9_partitioner 39 3 (by decide)

/-- C10 (corrected): the original claim asserts the counter of every
returned entry is at least 1 for every input file; the counter is a u32 and
the merge addition wraps in a release build, so a file holding 4294967296
records of one category (one full wrap) is returned with that category's
counter equal to 0, refuting the claim.  The byte total 55834574848 is
13 * 4294967296, still below the u64 modulus. -/
theorem C10_counterexample :
    singleThreadParser decodeRecord hugeFile
      = [([97], { counter := 0, num_of_bytes := 55834574848 })]
    ∧ ([97], ({ counter := 0, num_of_bytes := 55834574848 } : LogRegister))
        ∈ singleThreadParser decodeRecord hugeFile
    ∧ ¬(1 ≤ ({ counter := 0, num_of_bytes := 55834574848 } : LogRegister).counter) := by
  have hchunk : IsChunk recordA := ⟨by decide, by decide⟩
  have hproper : Proper (List.replicate 4294967296 recordA) :=
    proper_replicate _ recordA hchunk (by decide)
  have hsplit : splitLines hugeFile = List.replicate 4294967296 recordA := by
    simp only [hugeFile]
    exact splitLines_flatten_inv _ hproper
  have hdec : deltaOf decodeRecord recordA = some ([97], 13) := by decide
  have hfm : (List.replicate 4294967296 recordA).filterMap (deltaOf decodeRecord)
      = List.replicate 4294967296 ([97], 13) :=
    filterMap_replicate _ _ _ hdec _
  have hmain : singleThreadParser decodeRecord hugeFile
      = [([97], { counter := 0, num_of_bytes := 55834574848 })] := by
    rw [singleThread_eq, hsplit, hfm]
    have hN : (4294967296 : Nat) = 4294967295 + 1 := by norm_num
    rw [hN, List.replicate_succ, mergeDeltas_cons]
    have hme : mergeEntry [] [97] (LogRegister.new 13)
        = [([97], LogRegister.zero.add (LogRegister.new 13))] := by
      simp [mergeEntry]
    have hz : LogRegister.zero.add (LogRegister.new 13)
        = { counter := 1, num_of_bytes := 13 } := by
      decide
    rw [hme, hz, mergeDeltas_replicate [97] 13 4294967295
      { counter := 1, num_of_bytes := 13 } (by norm_num) (by norm_num)]
    norm_num
  refine ⟨hmain, ?_, by decide⟩
  rw [hmain]
  simp

/-- C10 (amended): every entry of a map returned by any of the three parsers
has a counter of at least 1 and at least as many bytes as its counter,
provided the run merges fewer than 4294967296 lines in total and fewer than
18446744073709551616 total bytes (so that the wrapping u32 and u64 additions
of the merge never wrap): entries are created only when a decoded line is
merged, and every consumed line is at least one byte long. -/
theorem C10_entry_bounds (decode : List Byte → Option (List Byte)) (k : Nat)
    (file : List Byte) (c : List Byte) (r : LogRegister)
    (hk : 1 ≤ k)
    (hcnt : k * (splitLines file).length < 4294967296)
    (hbytes : k * file.length < 18446744073709551616) :
    ((c, r) ∈ multi_thread_parser_dashmap decode k file →
      1 ≤ r.counter ∧ r.counter ≤ r.num_of_bytes)
    ∧ ((c, r) ∈ multi_thread_parser_channel decode k file →
      1 ≤ r.counter ∧ r.counter ≤ r.num_of_bytes)
    ∧ ((c, r) ∈ singleThreadParser decode file →
      1 ≤ r.counter ∧ r.counter ≤ r.num_of_bytes) := by
  have hjb := workerLinesJoined_bounds file (bytesPortion file.length k) k
  have hds1 := deltaOf_mem_pos decode
    (workerLinesJoined file k (bytesPortion file.length k))
    (fun l hl => mem_workerLinesJoined_ne_nil file k (bytesPortion file.length k) l hl)
  have hlen1 : ((workerLinesJoined file k (bytesPortion file.length k)).filterMap
      (deltaOf decode)).length < 4294967296 := by
    have h1 := List.length_filterMap_le (deltaOf decode)
      (workerLinesJoined file k (bytesPortion file.length k))
    omega
  have hsum1 : sumBytes ((workerLinesJoined file k (bytesPortion file.length k)).filterMap
      (deltaOf decode)) < 18446744073709551616 := by
    have h1 := sumBytes_filterMap_le decode (workerLinesJoined file k (bytesPortion file.length k))
    omega
  refine ⟨?_, ?_, ?_⟩
  · intro hmem
    rw [dashmap_eq_flat, joined_filterMap] at hmem
    exact mergeDeltas_new_bounded _ [] hds1 hlen1 hsum1 (by simp) (c, r) hmem
  · intro hmem
    rw [channel_eq_flat, joined_filterMap] at hmem
    exact mergeDeltas_new_bounded _ [] hds1 hlen1 hsum1 (by simp) (c, r) hmem
  · intro hmem
    rw [singleThread_eq] at hmem
    have hds := deltaOf_mem_pos decode (splitLines file)
      (fun l hl => mem_splitLines_ne_nil file l hl)
    have hlen : ((splitLines file).filterMap (deltaOf decode)).length < 4294967296 := by
      have h1 := List.length_filterMap_le (deltaOf decode) (splitLines file)
      have h2 := Nat.le_mul_of_pos_left (splitLines file).length (show 0 < k by omega)
      omega
    have hsum : sumBytes ((splitLines file).filterMap (deltaOf decode))
        < 18446744073709551616 := by
      have h1 := sumBytes_filterMap_le decode (splitLines file)
      have h2 : sumLens (splitLines file) = file.length := by
        rw [sumLens_eq_flatten_length, splitLines_flatten]
      have h3 := Nat.le_mul_of_pos_left file.length (show 0 < k by omega)
      omega
    exact mergeDeltas_new_bounded _ [] hds hlen hsum (by simp) (c, r) hmem

/-- Witness for C10: the entry of category a in the single-worker parse of
the 39-byte sample file, far below both wrap bounds, has counter 2 and 26
bytes. -/
theorem C10_witness :
    1 ≤ ({ counter := 2, num_of_bytes := 26 } : LogRegister).counter
    ∧ ({ counter := 2, num_of_bytes := 26 } : LogRegister).counter
        ≤ ({ counter := 2, num_of_bytes := 26 } : LogRegister).num_of_bytes :=
  (C10_entry_bounds decodeRecord 1 sampleFile [97] { counter := 2, num_of_bytes := 26 }
      (by decide) (by decide) (by decide)).1
    (by decide)

end LogParser
